import Mathlib

/-!
Verification of the geometric clustering and fitting pipeline of
`leed/calc_rprime.py` (blob_detection repository).

The Python floats are modelled as real numbers.  The constant `np.pi` is a
double-precision float; it is modelled by its exact rational value `npPi`
below, so that the angular-opposition test of `clustering` is stated exactly
as the source computes it.  `np.sqrt` is modelled by `Real.sqrt`, `//` (float
floor division) by `Int.floor`, `np.median` by sorting and taking the middle
element (mean of the two middle elements for even length), and `min` over a
nonempty numpy array by `listMin`.  Per-image spot detection
(`leed.detector.detect`) and `cv2.cartToPolar` are external collaborators;
the pipeline is modelled from the point where each image has produced an
optional pair of radius and angle lists.
-/

noncomputable section

namespace Leed

/-- Exact value of the IEEE-754 double `np.pi` (the float nearest pi). -/
def npPi : ℝ := 884279719003555 / 281474976710656

/-- Material kinds accepted by the command line (`--kind`). -/
inductive Kind | Au | Ag | Cu
deriving DecidableEq

/-- Surfaces accepted by the command line (`--surface`). -/
inductive Surface | s110 | s111
deriving DecidableEq

/-- The `base_type` dictionary: a kind and a surface. -/
structure BaseType where
  kind : Kind
  surface : Surface

/-- Lattice constants: the dictionary `a = {Cu: 3.61496, Ag: 4.0862, Au: 4.07864}`. -/
def latticeA : Kind → ℝ
  | Kind.Cu => 3.61496
  | Kind.Ag => 4.0862
  | Kind.Au => 4.07864

/-- Python `min` over a nonempty collection; 0 is a junk value for `[]`
(the source only applies `min` to nonempty angle arrays). -/
def listMin : List ℝ → ℝ
  | [] => 0
  | a :: t => t.foldl min a

/-- Insert a value into a sorted list (ascending). -/
def insertSorted (r : ℝ) : List ℝ → List ℝ
  | [] => [r]
  | a :: t => if r ≤ a then r :: a :: t else a :: insertSorted r t

/-- Ascending sort of the values of a list, modelling `np.sort`. -/
def sortList : List ℝ → List ℝ
  | [] => []
  | a :: t => insertSorted a (sortList t)

/-- Model of `np.median`: sort, take the middle element, or the mean of the
two middle elements when the length is even. -/
def median (l : List ℝ) : ℝ :=
  let s := sortList l
  if l.length % 2 = 1 then s.getD (l.length / 2) 0
  else (s.getD (l.length / 2 - 1) 0 + s.getD (l.length / 2) 0) / 2

/-! ### clustering (source lines 110-147) -/

/-- The merge-gap threshold `delta_bin = 10`. -/
def deltaBin : ℝ := 10

/-- Bin edges of `np.histogram(x, bins=100, range=(0, 500))`: edge `j` is `5 * j`. -/
def binStart (j : ℕ) : ℝ := 5 * j

/-- Membership of a radius in histogram bin `j`; every bin is half-open
except the last, which is closed (numpy histogram semantics). -/
def inBin (j : ℕ) (r : ℝ) : Prop :=
  if j = 99 then binStart 99 ≤ r ∧ r ≤ 500 else binStart j ≤ r ∧ r < binStart (j + 1)

instance (j : ℕ) (r : ℝ) : Decidable (inBin j r) := by unfold inBin; infer_instance

/-- Count of the radii of `x` falling in bin `j` (the entries of `freq`). -/
def freq (x : List ℝ) (j : ℕ) : ℕ :=
  x.foldr (fun r c => if inBin j r then c + 1 else c) 0

/-- The list `bin_freqs`: the pairs `(bins[j], freq[j])` of the non-empty bins,
in increasing bin order. -/
def binFreqs (x : List ℝ) : List (ℝ × ℕ) :=
  (List.range 100).filterMap
    (fun j => if freq x j = 0 then none else some (binStart j, freq x j))

/-- Boolean-mask selection `x[x_range]`, `theta[x_range]` for the mask
`(x >= lo) & (x <= hi)`: keeps the radii in `[lo, hi]` together with the
angles at the same positions. -/
def selectSpan (lo hi : ℝ) : List ℝ → List ℝ → List ℝ × List ℝ
  | [], _ => ([], [])
  | _ :: _, [] => ([], [])
  | r :: rs, t :: ts =>
    let rest := selectSpan lo hi rs ts
    if lo ≤ r ∧ r ≤ hi then (r :: rest.1, t :: rest.2) else rest

/-- The bin walk of `clustering` (source lines 121-133).  The arguments track
the loop state: `first` is true exactly at `j = 0`, `prev` is `prev_bin`,
`start` is `start`.  A new cluster is triggered when the current bin start
exceeds `prev + delta_bin` or the last bin is reached; on a trigger (except
at `j = 0`) the span from `start` to `end + delta_bin` is re-selected from
the raw radii, where `end` is the previous bin start, or the current bin
start when the trigger is the last bin; spans holding at most one radius are
dropped. -/
def walkAux (x θ : List ℝ) : Bool → ℝ → ℝ → List (ℝ × ℕ) → List (List ℝ) × List (List ℝ)
  | _, _, _, [] => ([], [])
  | first, _, start, [b] =>
    if first then ([], [])
    else
      let sel := selectSpan start (b.1 + deltaBin) x θ
      if 1 < sel.1.length then ([sel.1], [sel.2]) else ([], [])
  | first, prev, start, b :: b' :: t =>
    if b.1 > prev + deltaBin then
      if first then walkAux x θ false b.1 b.1 (b' :: t)
      else
        let sel := selectSpan start (prev + deltaBin) x θ
        let rest := walkAux x θ false b.1 b.1 (b' :: t)
        if 1 < sel.1.length then (sel.1 :: rest.1, sel.2 :: rest.2) else rest
    else walkAux x θ false b.1 start (b' :: t)

/-- The histogram-and-walk stage of `clustering` (source lines 110-133): the
lists `cluster` and `cluster_theta` before the angular validity test. -/
def buildClusters (x θ : List ℝ) : List (List ℝ) × List (List ℝ) :=
  walkAux x θ true 0 0 (binFreqs x)

/-! Specification-side description of the walk (for the cluster-formation
claim): group the non-empty bins into maximal runs whose successive starts
are within the merge-gap threshold, emit one span per group running from
the group's first bin start to its last bin start (selection then adds the
threshold), with two tail exceptions exhibited by the code: a trailing
gap-separated single-bin group is absorbed into the previous group's span,
and a sole single-bin group emits nothing. -/

/-- Maximal runs of non-empty bins with successive starts within
`deltaBin` of each other. -/
def gapGroups : List (ℝ × ℕ) → List (List (ℝ × ℕ))
  | [] => []
  | [b] => [[b]]
  | b :: b' :: t =>
    if b'.1 > b.1 + deltaBin then [b] :: gapGroups (b' :: t)
    else
      match gapGroups (b' :: t) with
      | [] => [[b]]
      | g :: gs => (b :: g) :: gs

/-- Spans `(first bin start, last bin start)` of a group list; the first
span starts at `start`; the two tail exceptions apply. -/
def spansOf (start : ℝ) : List (List (ℝ × ℕ)) → List (ℝ × ℝ)
  | [] => []
  | [g] => if 1 < g.length then [(start, (g.getLastD (0, 0)).1)] else []
  | [g, g'] =>
    if g'.length = 1 then [(start, (g'.headD (0, 0)).1)]
    else (start, (g.getLastD (0, 0)).1) :: spansOf (g'.headD (0, 0)).1 [g']
  | g :: g' :: g'' :: gs =>
    (start, (g.getLastD (0, 0)).1) :: spansOf (g'.headD (0, 0)).1 (g' :: g'' :: gs)

/-- Members of each span: all raw radii in `[lo, hi + deltaBin]` with their
angles; spans holding at most one radius are dropped. -/
def clustersOfSpans (x θ : List ℝ) : List (ℝ × ℝ) → List (List ℝ) × List (List ℝ)
  | [] => ([], [])
  | s :: rest =>
    let sel := selectSpan s.1 (s.2 + deltaBin) x θ
    let r := clustersOfSpans x θ rest
    if 1 < sel.1.length then (sel.1 :: r.1, sel.2 :: r.2) else r

/-- The cluster lists described by the amended cluster-formation claim. -/
def specClusters (x θ : List ℝ) : List (List ℝ) × List (List ℝ) :=
  match binFreqs x with
  | [] => ([], [])
  | b :: t => clustersOfSpans x θ (spansOf b.1 (gapGroups (b :: t)))

/-- Unordered 2-combinations in `itertools.combinations` order. -/
def pairsOf : List ℝ → List (ℝ × ℝ)
  | [] => []
  | a :: t => t.map (fun b => (a, b)) ++ pairsOf t

/-- The angular-opposition acceptance test of `clustering`:
`np.abs(np.pi - np.abs(k[0] - k[1])) < 0.1`. -/
def oppTest (p : ℝ × ℝ) : Prop := abs (npPi - abs (p.1 - p.2)) < 0.1

instance (p : ℝ × ℝ) : Decidable (oppTest p) := by unfold oppTest; infer_instance

/-- The validity loop over one cluster (source lines 136-141): walk all angle
pairs; each satisfying pair marks the cluster valid and overwrites the
stored angle list with that pair. -/
def validLoop (θs : List ℝ) : Bool × List ℝ :=
  (pairsOf θs).foldl (fun acc k => if oppTest k then (true, [k.1, k.2]) else acc) (false, θs)

/-- Keep the clusters whose validity flag is set (source line 142). -/
def keepValid : List (List ℝ) → List (Bool × List ℝ) → List (List ℝ)
  | [], _ => []
  | _ :: _, [] => []
  | c :: cs, v :: vs => if v.1 then c :: keepValid cs vs else keepValid cs vs

/-- Keep the angle lists of the valid clusters (source line 143). -/
def keepValidTheta : List (Bool × List ℝ) → List (List ℝ)
  | [] => []
  | v :: vs => if v.1 then v.2 :: keepValidTheta vs else keepValidTheta vs

/-- The function `clustering(x, theta)` (source lines 110-147): histogram
walk, angular validity filter, and the `None, None` result (modelled as
`none`) when no valid cluster remains. -/
def clustering (x θ : List ℝ) : Option (List (List ℝ) × List (List ℝ)) :=
  let bc := buildClusters x θ
  let validated := bc.2.map validLoop
  match keepValid bc.1 validated, keepValidTheta validated with
  | [], _ => none
  | c :: cs, ts => some (c :: cs, ts)

/-! ### calc_x_and_sintheta (source lines 67-107)

The array `theta_baseline` is created as `np.ones(2) * 100` at the start of
every call, so the `theta_baseline[k] == 100` guards always fire and the
baselines are simply the minimum angles of the first (and second) clusters
of the current call.  The parameters `xs` and `sinthetas` of the Python
function are never read and are omitted. -/

/-- The order-resolution loop of the `Au`/`110` branch (source lines 81-91):
accept the first cluster whose minimum angle is within 0.1 of the baseline
and whose order `n = (x / lamb) // 100 + 1` is at most 2; clusters with
`n > 2` are skipped by `continue`. -/
def auLoop (baseline voltage : ℝ) : List (List ℝ) → List (List ℝ) → Option (ℝ × ℝ)
  | [], _ => none
  | _ :: _, [] => none
  | c :: cs, t :: ts =>
    if |baseline - listMin t| < 0.1 then
      let x := median c
      let lamb := Real.sqrt (150.4 / voltage)
      let n : ℝ := ((⌊x / lamb / 100⌋ : ℤ) : ℝ) + 1
      if n > 2 then auLoop baseline voltage cs ts
      else some (x, n / (2 * latticeA Kind.Au) * lamb)
    else auLoop baseline voltage cs ts

/-- The order-resolution loop of the `Ag`/`Cu` `110` branch (source lines
99-107): at most the first three clusters are tried (`if j > 2: break`); for
each, baseline slot 0 gives order 1 and baseline slot 1 gives order
`sqrt 2`. -/
def agcuLoop (aK b0 b1 voltage : ℝ) : ℕ → List (List ℝ) → List (List ℝ) → Option (ℝ × ℝ)
  | _, [], _ => none
  | _, _ :: _, [] => none
  | j, c :: cs, t :: ts =>
    if j > 2 then none
    else if |b0 - listMin t| < 0.1 then
      some (median c, 1 * Real.sqrt (150.4 / voltage) / aK)
    else if |b1 - listMin t| < 0.1 then
      some (median c, Real.sqrt 2 * Real.sqrt (150.4 / voltage) / aK)
    else agcuLoop aK b0 b1 voltage (j + 1) cs ts

/-- The function `calc_x_and_sintheta` (source lines 67-107).  The implicit
`return None` reached when no cluster is accepted is modelled as `none`. -/
def calcXAndSintheta (bt : BaseType) (cluster clusterTheta : List (List ℝ))
    (voltage : ℝ) : Option (ℝ × ℝ) :=
  match bt.surface with
  | Surface.s111 =>
    let theoreticalD := latticeA bt.kind / Real.sqrt 2 * Real.sqrt 3 / 2
    some (median (cluster.headD []), Real.sqrt (150.4 / voltage) / theoreticalD)
  | Surface.s110 =>
    match bt.kind with
    | Kind.Au => auLoop (listMin (clusterTheta.headD [])) voltage cluster clusterTheta
    | _ =>
      agcuLoop (latticeA bt.kind) (listMin (clusterTheta.headD []))
        (if 1 < clusterTheta.length then listMin (clusterTheta.getD 1 []) else 100)
        voltage 0 cluster clusterTheta

/-- The diffraction order formula of the `Au`/`110` branch as the spec states
it: `n = (x / lamb) // 100 + 1` (float floor division). -/
def orderN (lamb x : ℝ) : ℝ := ((⌊x / lamb / 100⌋ : ℤ) : ℝ) + 1

/-! ### fit_xs_and_sinthetas (source lines 53-64) -/

/-- The linearizing transform `x = sinthetas / np.sqrt(1 - sinthetas ** 2)`. -/
def transform (s : ℝ) : ℝ := s / Real.sqrt (1 - s ^ 2)

/-- The denominator of the degree-1 least-squares normal equations. -/
def lsDenom (u : List ℝ) : ℝ :=
  (u.length : ℝ) * (u.map (fun a => a ^ 2)).sum - u.sum ^ 2

/-- Model of `np.polyfit(u, y, 1)`: the unique least-squares line through the
points `(u i, y i)` (slope, intercept), written in normal-equation closed
form.  For full-rank input (`lsDenom u ≠ 0`) this is exactly what numpy
computes; the optimality theorem `polyfit_isLeastSquares` below justifies
the model. -/
def polyfit (u y : List ℝ) : ℝ × ℝ :=
  let n : ℝ := u.length
  let slope := (n * ((u.zip y).map (fun p => p.1 * p.2)).sum - u.sum * y.sum) / lsDenom u
  (slope, (y.sum - slope * u.sum) / n)

/-- Removal of the samples flagged by the outlier mask
`np.abs(rprime * x + intercept - xs) > 50` (source line 58): keep the pairs
`(u, x)` whose residual against the first-pass line is at most 50. -/
def outlierKeep (r0 i0 : ℝ) : List (ℝ × ℝ) → List (ℝ × ℝ)
  | [] => []
  | p :: ps =>
    if |r0 * p.1 + i0 - p.2| > 50 then outlierKeep r0 i0 ps
    else p :: outlierKeep r0 i0 ps

/-- First pass of the fit: `np.polyfit(x, xs, 1)` on the transformed data. -/
def fitFirst (xs ss : List ℝ) : ℝ × ℝ := polyfit (ss.map transform) xs

/-- The samples surviving the outlier mask, as pairs `(u, x)`. -/
def fitKept (xs ss : List ℝ) : List (ℝ × ℝ) :=
  outlierKeep (fitFirst xs ss).1 (fitFirst xs ss).2 ((ss.map transform).zip xs)

/-- The function `fit_xs_and_sinthetas` (source lines 53-64): first-pass
least-squares fit, outlier removal, re-insertion of the point `(0, 0)` at
the head of both retained sequences (`np.insert(..., 0, 0)`), and the
second-pass fit.  The parallel insertion into `sinthetas` (source line 61)
is dead data and is not modelled. -/
def fitXsAndSinthetas (xs ss : List ℝ) : ℝ × ℝ :=
  polyfit (0 :: (fitKept xs ss).map Prod.fst) (0 :: (fitKept xs ss).map Prod.snd)

/-- Sum of squared residuals of the line with slope `m` and intercept `b`
against the data points `(u, x)`; the quantity minimised by a least-squares
linear fit. -/
def sse (l : List (ℝ × ℝ)) (m b : ℝ) : ℝ :=
  (l.map (fun p => (m * p.1 + b - p.2) ^ 2)).sum

/-! ### calc_rprime (source lines 150-175)

Each image is modelled by the optional radius and angle lists produced by
`detect` plus `cv2.cartToPolar` (externals), paired with its voltage.  The
statement `x, sintheta = calc_x_and_sintheta(...)` raises an uncaught
`TypeError` when the callee returns `None` (a `None` result cannot be
unpacked into a pair); this crash is modelled as `Except.error ()`. -/

/-- The per-image accumulation loop of `calc_rprime` (source lines 156-168),
threading the accumulated `xs` and `sinthetas`. -/
def processImages (bt : BaseType) :
    List (Option (List ℝ × List ℝ) × ℝ) → List ℝ × List ℝ → Except Unit (List ℝ × List ℝ)
  | [], acc => Except.ok acc
  | (none, _) :: rest, acc => processImages bt rest acc
  | (some (x, θ), v) :: rest, acc =>
    match clustering x θ with
    | none => processImages bt rest acc
    | some (cl, clθ) =>
      match calcXAndSintheta bt cl clθ v with
      | some s => processImages bt rest (acc.1 ++ [s.1], acc.2 ++ [s.2])
      | none => Except.error ()

/-- The function `calc_rprime` (source lines 150-175): seed the accumulators
with `np.array([0])`, process every image, then fit.  The returned pair is
`(rprime, intercept)`; the Python function returns only `rprime` and uses
the intercept for plotting. -/
def calcRprime (bt : BaseType) (imgs : List (Option (List ℝ × List ℝ) × ℝ)) :
    Except Unit (ℝ × ℝ) :=
  (processImages bt imgs ([0], [0])).map (fun acc => fitXsAndSinthetas acc.1 acc.2)

/-! ## Helper lemmas -/

theorem mem_of_getLast?_eq_some {α : Type} {l : List α} {a : α}
    (h : l.getLast? = some a) : a ∈ l := by
  obtain ⟨h1, h2⟩ := List.mem_getLast?_eq_getLast (Option.mem_def.mpr h)
  exact h2 ▸ List.getLast_mem h1

/-- The validity fold of `clustering` computes the last satisfying pair. -/
theorem foldl_opp (l : List (ℝ × ℝ)) (acc : Bool × List ℝ) :
    l.foldl (fun acc k => if oppTest k then (true, [k.1, k.2]) else acc) acc =
      match (l.filter (fun k => decide (oppTest k))).getLast? with
      | none => acc
      | some k => (true, [k.1, k.2]) := by
  induction l generalizing acc with
  | nil => simp
  | cons a t ih =>
    by_cases h : oppTest a
    · simp only [List.foldl_cons, if_pos h, List.filter_cons, decide_eq_true h, if_true]
      rw [ih]
      cases hft : (t.filter (fun k => decide (oppTest k))).getLast? with
      | none =>
        have hnil : t.filter (fun k => decide (oppTest k)) = [] := by
          cases hf : t.filter (fun k => decide (oppTest k)) with
          | nil => rfl
          | cons b l => rw [hf] at hft; simp at hft
        simp [hnil]
      | some k =>
        simp only [List.getLast?_cons, List.getLastD_eq_getLast?, hft, Option.getD_some]
    · simp only [List.foldl_cons, if_neg h, List.filter_cons, decide_eq_false h, if_false]
      exact ih acc

/-- The `Au`/`110` loop, characterised as the first cluster (in list order)
accepted by the angle test and the order bound. -/
theorem auLoop_eq_find (base v : ℝ) :
    ∀ (cs ts : List (List ℝ)),
      auLoop base v cs ts =
        ((cs.zip ts).find? (fun p =>
            decide (abs (base - listMin p.2) < 0.1 ∧
              orderN (Real.sqrt (150.4 / v)) (median p.1) ≤ 2))).map
          (fun p => (median p.1,
            orderN (Real.sqrt (150.4 / v)) (median p.1) * Real.sqrt (150.4 / v) /
              (2 * latticeA Kind.Au)))
  | [], _ => by simp [auLoop]
  | _ :: _, [] => by simp [auLoop]
  | c :: cs, t :: ts => by
    by_cases h1 : abs (base - listMin t) < 0.1
    · by_cases h2 : orderN (Real.sqrt (150.4 / v)) (median c) ≤ 2
      · have hn : ¬ ((⌊median c / Real.sqrt (150.4 / v) / 100⌋ : ℤ) : ℝ) + 1 > 2 := by
          rw [not_lt]
          exact h2
        simp only [auLoop, if_pos h1, if_neg hn, List.zip_cons_cons, List.find?_cons,
          decide_eq_true (show _ ∧ _ from ⟨h1, h2⟩), Option.map_some']
        congr 2
        unfold orderN
        ring
      · have hn : ((⌊median c / Real.sqrt (150.4 / v) / 100⌋ : ℤ) : ℝ) + 1 > 2 := by
          rw [gt_iff_lt, ← not_le]
          exact h2
        have hp : ¬ (abs (base - listMin t) < 0.1 ∧
            orderN (Real.sqrt (150.4 / v)) (median c) ≤ 2) := fun hc => h2 hc.2
        simp only [auLoop, if_pos h1, if_pos hn, List.zip_cons_cons, List.find?_cons,
          decide_eq_false hp, auLoop_eq_find base v cs ts]
    · have hp : ¬ (abs (base - listMin t) < 0.1 ∧
          orderN (Real.sqrt (150.4 / v)) (median c) ≤ 2) := fun hc => h1 hc.1
      simp only [auLoop, if_neg h1, List.zip_cons_cons, List.find?_cons,
        decide_eq_false hp, auLoop_eq_find base v cs ts]

theorem sse_expand (l : List (ℝ × ℝ)) (m b m0 b0 : ℝ) :
    sse l m b = sse l m0 b0 + (l.map (fun p => ((m - m0) * p.1 + (b - b0)) ^ 2)).sum +
      2 * ((m - m0) * (l.map (fun p => p.1 * (m0 * p.1 + b0 - p.2))).sum +
        (b - b0) * (l.map (fun p => m0 * p.1 + b0 - p.2)).sum) := by
  induction l with
  | nil => simp [sse]
  | cons a t ih =>
    simp only [sse, List.map_cons, List.sum_cons] at ih ⊢
    nlinarith [ih]

theorem sum_affine (l : List (ℝ × ℝ)) (A B : ℝ) :
    (l.map (fun p => A * p.1 + B - p.2)).sum =
      A * (l.map Prod.fst).sum + (l.length : ℝ) * B - (l.map Prod.snd).sum := by
  induction l with
  | nil => simp
  | cons a t ih =>
    simp only [List.map_cons, List.sum_cons, List.length_cons, ih]
    push_cast
    ring

theorem sum_quad (l : List (ℝ × ℝ)) (A B : ℝ) :
    (l.map (fun p => p.1 * (A * p.1 + B - p.2))).sum =
      A * (l.map (fun p => p.1 ^ 2)).sum + B * (l.map Prod.fst).sum -
        (l.map (fun p => p.1 * p.2)).sum := by
  induction l with
  | nil => simp
  | cons a t ih =>
    simp only [List.map_cons, List.sum_cons, ih]
    ring

theorem length_ne_zero_of_lsDenom (u : List ℝ) (hD : lsDenom u ≠ 0) :
    (u.length : ℝ) ≠ 0 := by
  intro h
  apply hD
  have hu : u = [] := List.length_eq_zero.mp (by exact_mod_cast h)
  simp [hu, lsDenom]

/-- The normal equations: the residuals of the `polyfit` line sum to zero,
both plainly and weighted by the abscissae. -/
theorem polyfit_normal (u y : List ℝ) (hl : u.length = y.length) (hD : lsDenom u ≠ 0) :
    ((u.zip y).map (fun p => (polyfit u y).1 * p.1 + (polyfit u y).2 - p.2)).sum = 0 ∧
    ((u.zip y).map (fun p => p.1 * ((polyfit u y).1 * p.1 + (polyfit u y).2 - p.2))).sum = 0 := by
  have hn : (u.length : ℝ) ≠ 0 := length_ne_zero_of_lsDenom u hD
  have hfst : (u.zip y).map Prod.fst = u := List.map_fst_zip u y (le_of_eq hl)
  have hsnd : (u.zip y).map Prod.snd = y := List.map_snd_zip u y (le_of_eq hl.symm)
  have hsq : (u.zip y).map (fun p => p.1 ^ 2) = u.map (fun a => a ^ 2) := by
    have h2 : (u.zip y).map (fun p => p.1 ^ 2) =
        ((u.zip y).map Prod.fst).map (fun a => a ^ 2) := by
      rw [List.map_map]; rfl
    rw [h2, hfst]
  have hlen : ((u.zip y).length : ℝ) = (u.length : ℝ) := by
    rw [List.length_zip, hl, min_self]
  rw [sum_affine, sum_quad, hfst, hsnd, hsq, hlen]
  unfold polyfit lsDenom at *
  simp only
  constructor
  · field_simp
    ring
  · field_simp
    ring

/-- For full-rank data the `polyfit` line minimises the sum of squared
residuals: the model of `np.polyfit(x, y, 1)` is a least-squares fit. -/
theorem polyfit_isLeastSquares (u y : List ℝ) (hl : u.length = y.length)
    (hD : lsDenom u ≠ 0) (m b : ℝ) :
    sse (u.zip y) (polyfit u y).1 (polyfit u y).2 ≤ sse (u.zip y) m b := by
  obtain ⟨hr0, hr1⟩ := polyfit_normal u y hl hD
  rw [sse_expand (u.zip y) m b (polyfit u y).1 (polyfit u y).2, hr0, hr1]
  have hnn : 0 ≤ ((u.zip y).map
      (fun p => ((m - (polyfit u y).1) * p.1 + (b - (polyfit u y).2)) ^ 2)).sum := by
    apply List.sum_nonneg
    intro a ha
    obtain ⟨p, _, rfl⟩ := List.mem_map.mp ha
    positivity
  nlinarith [hnn]

/-- The outlier-removal pass keeps exactly the samples whose first-pass
residual is at most 50. -/
theorem outlierKeep_eq_filter (r0 i0 : ℝ) (l : List (ℝ × ℝ)) :
    outlierKeep r0 i0 l = l.filter (fun p => decide (abs (r0 * p.1 + i0 - p.2) ≤ 50)) := by
  induction l with
  | nil => rfl
  | cons a t ih =>
    by_cases h : abs (r0 * a.1 + i0 - a.2) > 50
    · rw [outlierKeep, if_pos h, List.filter_cons,
        decide_eq_false (not_le.mpr h), ih]
      simp
    · rw [outlierKeep, if_neg h, List.filter_cons,
        decide_eq_true (not_lt.mp h), ih]
      simp

/-- The accumulator heads survive `processImages`: samples are only ever
appended at the tail. -/
theorem processImages_head (bt : BaseType) (imgs : List (Option (List ℝ × List ℝ) × ℝ)) :
    ∀ (acc : List ℝ × List ℝ) (xs ss : List ℝ), acc.1 ≠ [] → acc.2 ≠ [] →
      processImages bt imgs acc = Except.ok (xs, ss) →
      xs.head? = acc.1.head? ∧ ss.head? = acc.2.head? := by
  induction imgs with
  | nil =>
    intro acc xs ss h1 h2 h
    rw [processImages] at h
    cases h
    exact ⟨rfl, rfl⟩
  | cons img rest ih =>
    intro acc xs ss h1 h2 h
    obtain ⟨io, v⟩ := img
    cases io with
    | none => exact ih acc xs ss h1 h2 h
    | some d =>
      obtain ⟨dx, dθ⟩ := d
      rw [processImages] at h
      cases hc : clustering dx dθ with
      | none =>
        rw [hc] at h
        exact ih acc xs ss h1 h2 h
      | some cl =>
        obtain ⟨cls, clts⟩ := cl
        rw [hc] at h
        dsimp only at h
        cases hs : calcXAndSintheta bt cls clts v with
        | none => rw [hs] at h; cases h
        | some s =>
          rw [hs] at h
          have hne1 : acc.1 ++ [s.1] ≠ [] := by simp
          have hne2 : acc.2 ++ [s.2] ≠ [] := by simp
          obtain ⟨ha, hb⟩ := ih (acc.1 ++ [s.1], acc.2 ++ [s.2]) xs ss hne1 hne2 h
          rw [ha, hb]
          constructor
          · cases acc1 : acc.1 with
            | nil => exact absurd acc1 h1
            | cons a t => simp
          · cases acc2 : acc.2 with
            | nil => exact absurd acc2 h2
            | cons a t => simp

/-- Shape invariants of the bin walk: radius clusters and angle clusters are
emitted in lockstep, and every emitted radius cluster has more than one
member. -/
theorem walkAux_sound (x θ : List ℝ) :
    ∀ (first : Bool) (prev start : ℝ) (bf : List (ℝ × ℕ)),
      (walkAux x θ first prev start bf).1.length =
        (walkAux x θ first prev start bf).2.length ∧
      (∀ c ∈ (walkAux x θ first prev start bf).1, 1 < c.length)
  | first, prev, start, [] => by simp [walkAux]
  | first, prev, start, [b] => by
    rw [walkAux]
    by_cases hf : first = true
    · simp [hf]
    · rw [Bool.not_eq_true] at hf
      subst hf
      simp only [Bool.false_eq_true, if_false]
      by_cases hsel : 1 < (selectSpan start (b.1 + deltaBin) x θ).1.length
      · simp only [if_pos hsel]
        refine ⟨by simp, ?_⟩
        intro c hc
        rw [List.mem_singleton] at hc
        rw [hc]
        exact hsel
      · simp [if_neg hsel]
  | first, prev, start, b :: b' :: t => by
    rw [walkAux]
    by_cases hgap : b.1 > prev + deltaBin
    · rw [if_pos hgap]
      by_cases hf : first = true
      · rw [if_pos hf]
        exact walkAux_sound x θ false b.1 b.1 (b' :: t)
      · rw [Bool.not_eq_true] at hf
        subst hf
        simp only [Bool.false_eq_true, if_false]
        obtain ⟨ihlen, ihmem⟩ := walkAux_sound x θ false b.1 b.1 (b' :: t)
        by_cases hsel : 1 < (selectSpan start (prev + deltaBin) x θ).1.length
        · simp only [if_pos hsel, List.length_cons, ihlen]
          refine ⟨by simp, ?_⟩
          intro c hc
          rw [List.mem_cons] at hc
          cases hc with
          | inl hh => rw [hh]; exact hsel
          | inr hh => exact ihmem c hh
        · simp only [if_neg hsel]
          exact ⟨ihlen, ihmem⟩
    · rw [if_neg hgap]
      exact walkAux_sound x θ false b.1 start (b' :: t)

/-- A cluster valid after the pair loop stores some pair as its angle
list. -/
theorem validLoop_flag (θs : List ℝ) (h : (validLoop θs).1 = true) :
    ∃ k : ℝ × ℝ, (validLoop θs).2 = [k.1, k.2] := by
  have hfold := foldl_opp (pairsOf θs) (false, θs)
  rw [validLoop] at h ⊢
  cases hft : ((pairsOf θs).filter (fun k => decide (oppTest k))).getLast? with
  | none => rw [hfold, hft] at h; simp at h
  | some k =>
    rw [hfold, hft]
    exact ⟨k, rfl⟩

theorem keepValid_length : ∀ (cs : List (List ℝ)) (vs : List (Bool × List ℝ)),
    cs.length = vs.length → (keepValid cs vs).length = (keepValidTheta vs).length
  | [], [], _ => rfl
  | [], _ :: _, h => by simp at h
  | _ :: _, [], h => by simp at h
  | c :: cs, v :: vs, h => by
    have hlen : cs.length = vs.length := by
      simpa using h
    by_cases hv : v.1 = true
    · simp only [keepValid, keepValidTheta, if_pos hv, List.length_cons]
      rw [keepValid_length cs vs hlen]
    · simp only [keepValid, keepValidTheta, if_neg hv]
      exact keepValid_length cs vs hlen

theorem keepValid_mem : ∀ (cs : List (List ℝ)) (vs : List (Bool × List ℝ)) (c : List ℝ),
    c ∈ keepValid cs vs → c ∈ cs
  | [], _, c, h => by simp [keepValid] at h
  | _ :: _, [], c, h => by simp [keepValid] at h
  | a :: cs, v :: vs, c, h => by
    by_cases hv : v.1 = true
    · rw [keepValid, if_pos hv] at h
      rw [List.mem_cons] at h
      cases h with
      | inl hh => exact hh ▸ List.mem_cons_self a cs
      | inr hh => exact List.mem_cons_of_mem a (keepValid_mem cs vs c hh)
    · rw [keepValid, if_neg hv] at h
      exact List.mem_cons_of_mem a (keepValid_mem cs vs c h)

theorem keepValidTheta_mem : ∀ (vs : List (Bool × List ℝ)) (t : List ℝ),
    t ∈ keepValidTheta vs → ∃ v ∈ vs, v.1 = true ∧ v.2 = t
  | [], t, h => by simp [keepValidTheta] at h
  | v :: vs, t, h => by
    by_cases hv : v.1 = true
    · rw [keepValidTheta, if_pos hv] at h
      rw [List.mem_cons] at h
      cases h with
      | inl hh => exact ⟨v, List.mem_cons_self v vs, hv, hh.symm⟩
      | inr hh =>
        obtain ⟨w, hw, h1, h2⟩ := keepValidTheta_mem vs t hh
        exact ⟨w, List.mem_cons_of_mem v hw, h1, h2⟩
    · rw [keepValidTheta, if_neg hv] at h
      obtain ⟨w, hw, h1, h2⟩ := keepValidTheta_mem vs t h
      exact ⟨w, List.mem_cons_of_mem v hw, h1, h2⟩

/-! ## Lemmas relating the bin walk to the gap-group description -/

theorem getLastD_of_ne_nil {α : Type} (l : List α) (h : l ≠ []) (d1 d2 : α) :
    l.getLastD d1 = l.getLastD d2 := by
  cases l with
  | nil => exact absurd rfl h
  | cons a t =>
    rw [List.getLastD_eq_getLast?, List.getLastD_eq_getLast?, List.getLast?_cons]
    simp

theorem gapGroups_cons : ∀ (c : ℝ × ℕ) (l : List (ℝ × ℕ)),
    ∃ g gs, gapGroups (c :: l) = (c :: g) :: gs
  | _, [] => ⟨[], [], rfl⟩
  | c, d :: l' => by
    rw [gapGroups]
    by_cases h : d.1 > c.1 + deltaBin
    · rw [if_pos h]
      exact ⟨[], gapGroups (d :: l'), rfl⟩
    · rw [if_neg h]
      obtain ⟨g', gs', hg⟩ := gapGroups_cons d l'
      rw [hg]
      exact ⟨d :: g', gs', rfl⟩

theorem gapGroups_flatten : ∀ l : List (ℝ × ℕ), (gapGroups l).flatten = l
  | [] => rfl
  | [_] => rfl
  | b :: b' :: t => by
    rw [gapGroups]
    by_cases h : b'.1 > b.1 + deltaBin
    · rw [if_pos h]
      rw [List.flatten_cons, gapGroups_flatten (b' :: t)]
      rfl
    · rw [if_neg h]
      obtain ⟨g', gs', hg⟩ := gapGroups_cons b' t
      have hj := gapGroups_flatten (b' :: t)
      rw [hg] at hj ⊢
      simp only [List.flatten_cons, List.cons_append] at hj ⊢
      exact congrArg (List.cons b) hj

theorem spansOf_cons_group (gs : List (List (ℝ × ℕ))) (start : ℝ) (b : ℝ × ℕ)
    (g : List (ℝ × ℕ)) (hne : g ≠ []) (hlen : gs = [] → 1 < g.length) :
    spansOf start ((b :: g) :: gs) = spansOf start (g :: gs) := by
  have hlast : (b :: g).getLastD (0, 0) = g.getLastD (0, 0) := by
    rw [List.getLastD_cons]
    exact getLastD_of_ne_nil g hne b (0, 0)
  cases gs with
  | nil =>
    have h1 : 1 < g.length := hlen rfl
    have h1a : 1 < (b :: g).length := by simp; omega
    rw [spansOf, spansOf, if_pos h1a, if_pos h1, hlast]
  | cons g' gs' =>
    cases gs' with
    | nil =>
      by_cases h1 : g'.length = 1
      · simp only [spansOf, if_pos h1]
      · simp only [spansOf, if_neg h1, hlast]
    | cons g'' gs'' => simp only [spansOf, hlast]

theorem spansOf_shape : ∀ (gs : List (List (ℝ × ℕ))) (s1 s2 : ℝ),
    (spansOf s1 gs = [] ∧ spansOf s2 gs = []) ∨
    ∃ e rest, spansOf s1 gs = (s1, e) :: rest ∧ spansOf s2 gs = (s2, e) :: rest
  | [], _, _ => Or.inl ⟨rfl, rfl⟩
  | [g], s1, s2 => by
    by_cases h : 1 < g.length
    · exact Or.inr ⟨(g.getLastD (0, 0)).1, [], by rw [spansOf, if_pos h],
        by rw [spansOf, if_pos h]⟩
    · exact Or.inl ⟨by rw [spansOf, if_neg h], by rw [spansOf, if_neg h]⟩
  | [g, g'], s1, s2 => by
    by_cases h : g'.length = 1
    · exact Or.inr ⟨(g'.headD (0, 0)).1, [], by simp only [spansOf, if_pos h],
        by simp only [spansOf, if_pos h]⟩
    · exact Or.inr ⟨(g.getLastD (0, 0)).1, spansOf (g'.headD (0, 0)).1 [g'],
        by simp only [spansOf, if_neg h], by simp only [spansOf, if_neg h]⟩
  | g :: g' :: g'' :: gs, s1, s2 =>
    Or.inr ⟨(g.getLastD (0, 0)).1, spansOf (g'.headD (0, 0)).1 (g' :: g'' :: gs),
      by rw [spansOf], by rw [spansOf]⟩

/-- The bin walk (started past its first bin, with the current cluster open
at `start` and the previous bin being `b`) emits exactly the clusters of
the gap-group spans of the remaining bins. -/
theorem walkAux_eq_spans (x θ : List ℝ) :
    ∀ (bf : List (ℝ × ℕ)) (b : ℝ × ℕ) (start : ℝ),
      walkAux x θ false b.1 start bf =
        clustersOfSpans x θ (spansOf start (gapGroups (b :: bf)))
  | [], b, start => by
    rw [walkAux, gapGroups, spansOf]
    rw [if_neg (by simp)]
    rfl
  | [b'], b, start => by
    rw [walkAux]
    simp only [Bool.false_eq_true, if_false]
    by_cases h : b'.1 > b.1 + deltaBin
    · rw [show gapGroups [b, b'] = [[b], [b']] from by rw [gapGroups, if_pos h]; rfl]
      conv_rhs => rw [spansOf, if_pos (show ([b'] : List (ℝ × ℕ)).length = 1 from rfl)]
      rfl
    · rw [show gapGroups [b, b'] = [[b, b']] from by rw [gapGroups, if_neg h]; rfl]
      have h2 : 1 < ([b, b'] : List (ℝ × ℕ)).length := by simp
      conv_rhs => rw [spansOf]
      rw [if_pos h2]
      rfl
  | b' :: b'' :: t, b, start => by
    rw [walkAux]
    obtain ⟨g₂, gs₂, hG⟩ := gapGroups_cons b' (b'' :: t)
    have hjoin := gapGroups_flatten (b' :: b'' :: t)
    rw [hG] at hjoin
    by_cases hgap : b'.1 > b.1 + deltaBin
    · rw [if_pos hgap]
      simp only [Bool.false_eq_true, if_false]
      rw [show gapGroups (b :: b' :: b'' :: t) =
          [b] :: gapGroups (b' :: b'' :: t) from by rw [gapGroups, if_pos hgap], hG]
      have hIH := walkAux_eq_spans x θ (b'' :: t) b' b'.1
      rw [hG] at hIH
      cases gs₂ with
      | nil =>
        have hg₂ : g₂ = b'' :: t := by
          simp only [List.flatten_cons, List.flatten_nil, List.append_nil,
            List.cons.injEq, true_and] at hjoin
          exact hjoin
        have hne1 : ¬ ((b' :: g₂) : List (ℝ × ℕ)).length = 1 := by rw [hg₂]; simp
        conv_rhs => rw [spansOf]
        rw [if_neg hne1, hIH]
        rfl
      | cons g₃ gs₃ =>
        conv_rhs => rw [spansOf]
        rw [hIH]
        rfl
    · rw [if_neg hgap]
      have hIH := walkAux_eq_spans x θ (b'' :: t) b' start
      rw [hIH, hG]
      rw [show gapGroups (b :: b' :: b'' :: t) =
          (b :: b' :: g₂) :: gs₂ from by rw [gapGroups, if_neg hgap, hG]]
      have hcond : gs₂ = [] → 1 < ((b' :: g₂) : List (ℝ × ℕ)).length := by
        intro hgs
        rw [hgs] at hjoin
        simp only [List.flatten_cons, List.flatten_nil, List.append_nil] at hjoin
        rw [hjoin]
        simp
      rw [spansOf_cons_group gs₂ start b (b' :: g₂) (by simp) hcond]

/-! ## Lemmas locating the first non-empty bin -/

theorem head_filterMap_range' {β : Type} (f : ℕ → Option β) :
    ∀ (n s : ℕ) (y : β) (t : List β), (List.range' s n).filterMap f = y :: t →
      ∃ j₀, s ≤ j₀ ∧ j₀ < s + n ∧ f j₀ = some y ∧ ∀ i, s ≤ i → i < j₀ → f i = none
  | 0, s, y, t, h => by simp [List.range'] at h
  | n + 1, s, y, t, h => by
    rw [List.range'_succ, List.filterMap_cons] at h
    cases hf : f s with
    | some z =>
      rw [hf] at h
      injection h with h1 _
      exact ⟨s, le_refl s, by omega, h1 ▸ hf,
        fun i hi1 hi2 => absurd (lt_of_lt_of_le hi2 hi1) (lt_irrefl i)⟩
    | none =>
      rw [hf] at h
      obtain ⟨j₀, hj1, hj2, hj3, hj4⟩ := head_filterMap_range' f n (s + 1) y t h
      refine ⟨j₀, by omega, by omega, hj3, fun i hi1 hi2 => ?_⟩
      rcases eq_or_lt_of_le hi1 with rfl | hlt
      · exact hf
      · exact hj4 i (by omega) hi2

theorem freq_pos_of_mem : ∀ (x : List ℝ) (r : ℝ) (j : ℕ), r ∈ x → inBin j r →
    freq x j ≠ 0
  | [], r, j, h, _ => by simp at h
  | a :: t, r, j, h, hbin => by
    show (if inBin j a then freq t j + 1 else freq t j) ≠ 0
    rw [List.mem_cons] at h
    by_cases ha : inBin j a
    · rw [if_pos ha]; omega
    · rw [if_neg ha]
      cases h with
      | inl he => exact absurd (he ▸ hbin) ha
      | inr ht => exact freq_pos_of_mem t r j ht hbin

/-- Every raw nonnegative radius is at least the first non-empty bin start:
no radius lies strictly below the first bin of the histogram. -/
theorem radii_ge_first_bin (x : List ℝ) (b : ℝ × ℕ) (t : List (ℝ × ℕ))
    (h : binFreqs x = b :: t) : ∀ r ∈ x, 0 ≤ r → b.1 ≤ r := by
  intro r hr hr0
  by_contra hlt
  push_neg at hlt
  rw [binFreqs, List.range_eq_range'] at h
  obtain ⟨j₀, _, hj₀lt, hj₀some, hmin⟩ := head_filterMap_range' _ 100 0 b t h
  have hb1 : b.1 = binStart j₀ := by
    by_cases hz : freq x j₀ = 0
    · rw [if_pos hz] at hj₀some; cases hj₀some
    · rw [if_neg hz] at hj₀some
      injection hj₀some with hh
      rw [← hh]
  have hjnn : (0 : ℤ) ≤ ⌊r / 5⌋ := Int.floor_nonneg.mpr (by positivity)
  set j : ℕ := (⌊r / 5⌋).toNat with hjdef
  have hfl : (⌊r / 5⌋ : ℤ) = (j : ℤ) := (Int.toNat_of_nonneg hjnn).symm
  have h5j : (5 : ℝ) * j ≤ r := by
    have hle := Int.floor_le (r / 5)
    rw [hfl] at hle
    push_cast at hle
    linarith
  have h5j1 : r < 5 * ((j : ℝ) + 1) := by
    have hlt1 := Int.lt_floor_add_one (r / 5)
    rw [hfl] at hlt1
    push_cast at hlt1
    linarith
  have hjlt : j < j₀ := by
    have hx : (5 : ℝ) * j < 5 * j₀ := by
      rw [hb1, binStart] at hlt
      linarith
    have hxx : (j : ℝ) < j₀ := by linarith
    exact_mod_cast hxx
  have hbin : inBin j r := by
    rw [inBin, if_neg (show j ≠ 99 by omega)]
    constructor
    · rw [binStart]; exact h5j
    · rw [binStart]; push_cast; linarith
  have hz : freq x j = 0 := by
    have hnone := hmin j (Nat.zero_le j) hjlt
    by_cases hzz : freq x j = 0
    · exact hzz
    · rw [if_neg hzz] at hnone; cases hnone
  exact freq_pos_of_mem x r j hr hbin hz

/-- Lowering the selection lower bound from the first bin start to 0 selects
the same radii. -/
theorem selectSpan_lo_bridge (b hi : ℝ) (hb0 : 0 ≤ b) :
    ∀ (x θ : List ℝ), (∀ r ∈ x, 0 ≤ r → b ≤ r) →
      selectSpan 0 hi x θ = selectSpan b hi x θ
  | [], _, _ => rfl
  | _ :: _, [], _ => rfl
  | r :: rs, t :: ts, hb => by
    rw [selectSpan, selectSpan,
      selectSpan_lo_bridge b hi hb0 rs ts (fun a ha h0 => hb a (List.mem_cons_of_mem r ha) h0)]
    by_cases hc : 0 ≤ r ∧ r ≤ hi
    · rw [if_pos hc, if_pos ⟨hb r (List.mem_cons_self r rs) hc.1, hc.2⟩]
    · rw [if_neg hc, if_neg (fun hc2 => hc ⟨le_trans hb0 hc2.1, hc2.2⟩)]

/-! ## Concrete clustering evaluations -/

set_option maxHeartbeats 1000000 in
theorem binFreqs_c1 : binFreqs [250, 256] = [(250, 1), (255, 1)] := by
  norm_num [binFreqs, List.range_succ, List.filterMap_append, List.filterMap_cons,
    List.filterMap_nil, freq, inBin, binStart]

set_option maxHeartbeats 1000000 in
theorem binFreqs_c9 : binFreqs [100, 101, 106] = [(100, 2), (105, 1)] := by
  norm_num [binFreqs, List.range_succ, List.filterMap_append, List.filterMap_cons,
    List.filterMap_nil, freq, inBin, binStart]

set_option maxHeartbeats 1000000 in
theorem binFreqs_c4 : binFreqs [100, 100, 300, 300] = [(100, 2), (300, 2)] := by
  norm_num [binFreqs, List.range_succ, List.filterMap_append, List.filterMap_cons,
    List.filterMap_nil, freq, inBin, binStart]

theorem binFreqs_head_start (x : List ℝ) (b : ℝ × ℕ) (t : List (ℝ × ℕ))
    (h : binFreqs x = b :: t) : ∃ j₀ < 100, b.1 = binStart j₀ := by
  rw [binFreqs, List.range_eq_range'] at h
  obtain ⟨j₀, _, hlt, hsome, _⟩ := head_filterMap_range' _ 100 0 b t h
  by_cases hz : freq x j₀ = 0
  · rw [if_pos hz] at hsome; cases hsome
  · rw [if_neg hz] at hsome
    injection hsome with hh
    exact ⟨j₀, by omega, by rw [← hh]⟩

theorem clustering_c1 :
    clustering [250, 256] [0.7, 3.84] = some ([[250, 256]], [[0.7, 3.84]]) := by
  have hopp : oppTest (0.7, 3.84) := by
    unfold oppTest npPi; rw [abs_sub_lt_iff]; norm_num [abs_of_nonneg]
  have hbc : buildClusters [250, 256] [0.7, 3.84] = ([[250, 256]], [[0.7, 3.84]]) := by
    rw [buildClusters, binFreqs_c1]
    norm_num [walkAux, deltaBin, selectSpan]
  rw [clustering, hbc]
  simp only [List.map_cons, List.map_nil, validLoop, pairsOf, List.append_nil,
    List.foldl_cons, List.foldl_nil, if_pos hopp, keepValid, keepValidTheta, if_true]

theorem clustering_c9 :
    clustering [100, 101, 106] [0.5, 3.64, 2] = some ([[100, 101, 106]], [[0.5, 3.64]]) := by
  have ho1 : oppTest (0.5, 3.64) := by
    unfold oppTest npPi; rw [abs_sub_lt_iff]; norm_num [abs_of_nonneg]
  have ho2 : ¬ oppTest (0.5, 2) := by
    unfold oppTest npPi; rw [abs_sub_lt_iff]; norm_num [abs_of_nonneg]
  have ho3 : ¬ oppTest (3.64, 2) := by
    unfold oppTest npPi; rw [abs_sub_lt_iff]; norm_num [abs_of_nonneg]
  have hbc : buildClusters [100, 101, 106] [0.5, 3.64, 2] =
      ([[100, 101, 106]], [[0.5, 3.64, 2]]) := by
    rw [buildClusters, binFreqs_c9]
    norm_num [walkAux, deltaBin, selectSpan]
  rw [clustering, hbc]
  simp only [List.map_cons, List.map_nil, validLoop, pairsOf, List.append_nil,
    List.cons_append, List.nil_append, List.foldl_cons, List.foldl_nil,
    if_pos ho1, if_neg ho2, if_neg ho3, keepValid, keepValidTheta, if_true]

/-! ## Claims -/

/-- C1 (code bug): an image whose clustering succeeds but for which the
`Au`/`110` order resolution accepts no cluster (here: the only cluster has
order `n = 3 > 2`) does not make the pipeline skip the image: the statement
`x, sintheta = calc_x_and_sintheta(...)` unpacks the `None` return and
raises an uncaught `TypeError` (modelled as `Except.error ()`), aborting the
whole run instead of processing the remaining images. -/
theorem C1_unresolved_order_crashes_pipeline :
    clustering [250, 256] [0.7, 3.84] = some ([[250, 256]], [[0.7, 3.84]]) ∧
    calcXAndSintheta ⟨Kind.Au, Surface.s110⟩ [[250, 256]] [[0.7, 3.84]] 150.4 = none ∧
    calcRprime ⟨Kind.Au, Surface.s110⟩ [(some ([250, 256], [0.7, 3.84]), 150.4)] =
      Except.error () := by
  have hmin : listMin [0.7, 3.84] = 0.7 := by
    simp only [listMin, List.foldl_cons, List.foldl_nil]
    rw [min_eq_left (by norm_num)]
  have hmed : median [250, 256] = 253 := by
    norm_num [median, sortList, insertSorted]
  have hlamb : Real.sqrt (150.4 / 150.4) = 1 := by norm_num
  have hcalc : calcXAndSintheta ⟨Kind.Au, Surface.s110⟩ [[250, 256]] [[0.7, 3.84]] 150.4 =
      none := by
    simp only [calcXAndSintheta, List.headD_cons, hmin, auLoop, hmed, hlamb]
    norm_num [auLoop]
  have hproc : processImages ⟨Kind.Au, Surface.s110⟩
      [(some ([250, 256], [0.7, 3.84]), 150.4)] ([0], [0]) = Except.error () := by
    simp only [processImages, clustering_c1, hcalc]
  exact ⟨clustering_c1, hcalc, by simp only [calcRprime, hproc, Except.map]⟩

/-- C9 counterexample: on radii `[100, 101, 106]` (one three-member cluster)
with angles `[0.5, 3.64, 2]`, clustering returns a cluster whose radius
sequence has length 3 while its angle sequence is the matched pair of
length 2: the two sequences do not have equal length. -/
theorem C9_counterexample_unequal_lengths :
    clustering [100, 101, 106] [0.5, 3.64, 2] = some ([[100, 101, 106]], [[0.5, 3.64]]) ∧
    ¬ ([100, 101, 106] : List ℝ).length = ([0.5, 3.64] : List ℝ).length :=
  ⟨clustering_c9, by simp⟩

/-- C9 amended: every cluster returned by clustering pairs a radius sequence
of length at least 2 with an angle sequence of length exactly 2 (the
matched opposition pair); the radius and angle cluster lists themselves
have equal length, but the two sequences inside a cluster coincide in
length only when the cluster has exactly two members. -/
theorem C9_amended_cluster_shapes (x θ : List ℝ) (cs ts : List (List ℝ))
    (h : clustering x θ = some (cs, ts)) :
    cs.length = ts.length ∧ (∀ t ∈ ts, t.length = 2) ∧ ∀ c ∈ cs, 1 < c.length := by
  simp only [clustering] at h
  cases hk : keepValid (buildClusters x θ).1 ((buildClusters x θ).2.map validLoop) with
  | nil => rw [hk] at h; exact absurd h (by simp)
  | cons c rest =>
    rw [hk] at h
    rw [show (match c :: rest, keepValidTheta ((buildClusters x θ).2.map validLoop) with
        | [], _ => (none : Option (List (List ℝ) × List (List ℝ)))
        | c :: cs, ts => some (c :: cs, ts)) =
        some (c :: rest, keepValidTheta ((buildClusters x θ).2.map validLoop)) from rfl] at h
    rw [Option.some.injEq, Prod.mk.injEq] at h
    obtain ⟨hcs, hts⟩ := h
    have hw := walkAux_sound x θ true 0 0 (binFreqs x)
    refine ⟨?_, ?_, ?_⟩
    · rw [← hcs, ← hts, ← hk]
      apply keepValid_length
      rw [List.length_map]
      exact hw.1
    · intro t ht
      rw [← hts] at ht
      obtain ⟨v, hv, hflag, hsnd⟩ := keepValidTheta_mem _ t ht
      rw [List.mem_map] at hv
      obtain ⟨θs, _, rfl⟩ := hv
      obtain ⟨k, hk2⟩ := validLoop_flag θs hflag
      have : t = [k.1, k.2] := by rw [← hsnd, hk2]
      rw [this]
      rfl
    · intro cc hcc
      rw [← hcs] at hcc
      have hmem : cc ∈ (buildClusters x θ).1 :=
        keepValid_mem _ _ cc (by rw [hk]; exact hcc)
      exact hw.2 cc hmem

/-- Witness for C9 amended at the clustering run on radii `[250, 256]`. -/
theorem C9_amended_cluster_shapes_witness :
    ([[250, 256]] : List (List ℝ)).length = ([[0.7, 3.84]] : List (List ℝ)).length ∧
    (∀ t ∈ ([[0.7, 3.84]] : List (List ℝ)), t.length = 2) ∧
    ∀ c ∈ ([[250, 256]] : List (List ℝ)), 1 < c.length :=
  C9_amended_cluster_shapes [250, 256] [0.7, 3.84] _ _ clustering_c1

/-- C3: in clustering, a cluster is marked valid if and only if some
unordered 2-combination of its angle values satisfies the opposition test
`abs (pi - abs (t1 - t2)) < 0.1` (with `np.pi` modelled exactly), and for
every valid cluster the stored angle set is the last satisfying pair in
combination-iteration order. -/
theorem C3_validity_last_match (θs : List ℝ) :
    ((validLoop θs).1 = true ↔ ∃ p ∈ pairsOf θs, oppTest p) ∧
    (∀ p, ((pairsOf θs).filter (fun k => decide (oppTest k))).getLast? = some p →
      (validLoop θs).2 = [p.1, p.2]) := by
  unfold validLoop
  rw [foldl_opp]
  constructor
  · cases hft : ((pairsOf θs).filter (fun k => decide (oppTest k))).getLast? with
    | none =>
      have hnil : (pairsOf θs).filter (fun k => decide (oppTest k)) = [] := by
        cases hf : (pairsOf θs).filter (fun k => decide (oppTest k)) with
        | nil => rfl
        | cons b l => rw [hf] at hft; simp at hft
      rw [List.filter_eq_nil_iff] at hnil
      simp only [hft]
      constructor
      · intro h; exact absurd h (by simp)
      · rintro ⟨p, hp, hop⟩
        exact absurd (decide_eq_true hop) (by simpa using hnil p hp)
    | some k =>
      have hk : k ∈ (pairsOf θs).filter (fun k => decide (oppTest k)) :=
        mem_of_getLast?_eq_some hft
      rw [List.mem_filter] at hk
      simp only [hft]
      constructor
      · intro _; exact ⟨k, hk.1, of_decide_eq_true hk.2⟩
      · intro _; trivial
  · intro p hp
    simp only [hp]

/-- Witness for C3 at the angle list `[0.3, 3.44, 3.45]`: both pairs
`(0.3, 3.44)` and `(0.3, 3.45)` pass the opposition test, and the stored
pair is the later one, `(0.3, 3.45)`. -/
theorem C3_validity_last_match_witness :
    (validLoop [0.3, 3.44, 3.45]).1 = true ∧ (validLoop [0.3, 3.44, 3.45]).2 = [0.3, 3.45] := by
  have h := C3_validity_last_match [0.3, 3.44, 3.45]
  have t1 : oppTest (0.3, 3.44) := by
    unfold oppTest npPi; rw [abs_sub_lt_iff]; norm_num [abs_of_nonneg]
  have t2 : oppTest (0.3, 3.45) := by
    unfold oppTest npPi; rw [abs_sub_lt_iff]; norm_num [abs_of_nonneg]
  have f3 : ¬ oppTest (3.44, 3.45) := by
    unfold oppTest npPi; rw [abs_sub_lt_iff]; norm_num [abs_of_nonneg]
  have hpairs : pairsOf [0.3, 3.44, 3.45] = [(0.3, 3.44), (0.3, 3.45), (3.44, 3.45)] := by
    simp [pairsOf]
  have hfilter : ((pairsOf [0.3, 3.44, 3.45]).filter (fun k => decide (oppTest k))).getLast?
      = some (0.3, 3.45) := by
    rw [hpairs]
    simp only [List.filter_cons, List.filter_nil, decide_eq_true t1, decide_eq_true t2,
      decide_eq_false f3, if_true, if_false]
    rfl
  refine ⟨h.1.mpr ⟨(0.3, 3.45), ?_, t2⟩, h.2 _ hfilter⟩
  rw [hpairs]; simp

/-- C4 counterexample: the radii `[100, 100, 300, 300]` form two groups of
two radii each, separated by 200 (far more than the gap threshold), yet the
walk emits a single merged cluster holding all four radii - because the
last non-empty bin (start 300) both exceeds the gap threshold and is the
last bin, the emitted span runs from the previous cluster start 100 up to
300 + 10.  Neither group forms its own cluster, and the merged cluster's
members exceed its own bin span. -/
theorem C4_counterexample_tail_merge :
    buildClusters [100, 100, 300, 300] [0.5, 3.64, 1, 2] =
      ([[100, 100, 300, 300]], [[0.5, 3.64, 1, 2]]) ∧
    ¬ ([100, 100] : List ℝ) ∈ (buildClusters [100, 100, 300, 300] [0.5, 3.64, 1, 2]).1 ∧
    ¬ ([300, 300] : List ℝ) ∈ (buildClusters [100, 100, 300, 300] [0.5, 3.64, 1, 2]).1 := by
  have h : buildClusters [100, 100, 300, 300] [0.5, 3.64, 1, 2] =
      ([[100, 100, 300, 300]], [[0.5, 3.64, 1, 2]]) := by
    rw [buildClusters, binFreqs_c4]
    norm_num [walkAux, deltaBin, selectSpan]
  refine ⟨h, ?_, ?_⟩ <;> rw [h] <;> intro hmem <;> rw [List.mem_singleton] at hmem <;>
    have hlen := congrArg List.length hmem <;> simp at hlen

/-- C4 amended: the histogram walk of `clustering` is equivalent to the
following description: group the non-empty bins of the 100-bin histogram
over `[0, 500]` into maximal runs whose successive bin starts are within
the gap threshold 10; emit one span per group running from the group's
first bin start to its last bin start plus 10, except that a trailing
group consisting of a single gap-separated bin is absorbed into the
previous group's span, and a sole single-bin group emits nothing; each
cluster's members are all raw radii in its span (inclusive), and clusters
with at most one member are discarded. -/
theorem C4_amended_walk_is_gap_groups (x θ : List ℝ) :
    buildClusters x θ = specClusters x θ := by
  rw [buildClusters, specClusters]
  cases hbf : binFreqs x with
  | nil => rw [walkAux]
  | cons b t =>
    show walkAux x θ true 0 0 (b :: t) =
      clustersOfSpans x θ (spansOf b.1 (gapGroups (b :: t)))
    cases t with
    | nil =>
      rw [walkAux, if_pos rfl]
      conv_rhs => rw [show gapGroups [b] = [[b]] from rfl, spansOf]
      rw [if_neg (by simp)]
      rfl
    | cons b' t' =>
      rw [walkAux]
      by_cases hgap : b.1 > 0 + deltaBin
      · rw [if_pos hgap, if_pos rfl]
        exact walkAux_eq_spans x θ (b' :: t') b b.1
      · rw [if_neg hgap]
        rw [walkAux_eq_spans x θ (b' :: t') b 0]
        rcases spansOf_shape (gapGroups (b :: b' :: t')) 0 b.1 with
          ⟨h0, hb1⟩ | ⟨e, rest, h0, hb1⟩
        · rw [h0, hb1]
        · rw [h0, hb1]
          have hb0 : (0 : ℝ) ≤ b.1 := by
            obtain ⟨j₀, _, hj⟩ := binFreqs_head_start x b (b' :: t') hbf
            rw [hj, binStart]
            positivity
          have hsel : selectSpan 0 (e + deltaBin) x θ = selectSpan b.1 (e + deltaBin) x θ :=
            selectSpan_lo_bridge b.1 (e + deltaBin) hb0 x θ
              (radii_ge_first_bin x b (b' :: t') hbf)
          simp only [clustersOfSpans, hsel]

/-- C5: for kind `Au`, surface `110`, the returned sample is that of the
first cluster whose minimum angle is within 0.1 of the reference angle (the
minimum angle of the first cluster) and whose order
`n = (x / lamb) // 100 + 1` is at most 2, with `x` the median radius and
`sintheta = n * lamb / (2 * a)`; clusters failing either test (in
particular those with `n > 2`) are skipped and iteration continues. -/
theorem C5_au110_order_resolution (cluster clusterTheta : List (List ℝ)) (voltage : ℝ) :
    calcXAndSintheta ⟨Kind.Au, Surface.s110⟩ cluster clusterTheta voltage =
      ((cluster.zip clusterTheta).find? (fun p =>
          decide (abs (listMin (clusterTheta.headD []) - listMin p.2) < 0.1 ∧
            orderN (Real.sqrt (150.4 / voltage)) (median p.1) ≤ 2))).map
        (fun p => (median p.1,
          orderN (Real.sqrt (150.4 / voltage)) (median p.1) * Real.sqrt (150.4 / voltage) /
            (2 * latticeA Kind.Au))) := by
  simp only [calcXAndSintheta]
  exact auLoop_eq_find (listMin (clusterTheta.headD [])) voltage cluster clusterTheta

/-- C6: for surface `111` and any kind, the sample is the median radius of
the first cluster paired with `sqrt (150.4 / voltage) / d` where
`d = a * sqrt 3 / (2 * sqrt 2)`; the clusters after the first play no
role. -/
theorem C6_111_closed_form (kind : Kind) (c : List ℝ) (rest ts : List (List ℝ))
    (v : ℝ) (hv : 0 < v) :
    calcXAndSintheta ⟨kind, Surface.s111⟩ (c :: rest) ts v =
      some (median c,
        Real.sqrt (150.4 / v) / (latticeA kind * Real.sqrt 3 / (2 * Real.sqrt 2))) := by
  have hd : latticeA kind / Real.sqrt 2 * Real.sqrt 3 / 2 =
      latticeA kind * Real.sqrt 3 / (2 * Real.sqrt 2) := by
    rw [div_mul_eq_mul_div, div_div, mul_comm (Real.sqrt 2) 2]
  simp only [calcXAndSintheta, List.headD_cons, hd]

/-- Witness for C6 at kind `Au`, one cluster `[100, 102]`, voltage 150.4. -/
theorem C6_111_closed_form_witness :
    calcXAndSintheta ⟨Kind.Au, Surface.s111⟩ [[100, 102]] [] 150.4 =
      some (101,
        Real.sqrt (150.4 / 150.4) / (latticeA Kind.Au * Real.sqrt 3 / (2 * Real.sqrt 2))) := by
  have h := C6_111_closed_form Kind.Au [100, 102] [] [] 150.4 (by norm_num)
  rw [h]
  have hm : median [100, 102] = 101 := by
    simp [median, sortList, insertSorted]
    norm_num
  rw [hm]

/-- C7: the fit is the fixed two-pass scheme: transform the angles by
`u = s / sqrt (1 - s ^ 2)`, least-squares fit `x` against `u`, discard
exactly the samples with first-pass residual above 50, re-insert the point
`(0, 0)` at the head of both retained sequences, and return the
least-squares fit of the filtered and reseeded data.  Both passes are
genuine least-squares fits: each minimises the sum of squared residuals
over its data. -/
theorem C7_two_pass_fit (xs ss : List ℝ) (hl : ss.length = xs.length)
    (h1 : lsDenom (ss.map transform) ≠ 0)
    (h2 : lsDenom (0 :: (fitKept xs ss).map Prod.fst) ≠ 0) :
    fitKept xs ss = ((ss.map transform).zip xs).filter
        (fun p => decide (abs ((fitFirst xs ss).1 * p.1 + (fitFirst xs ss).2 - p.2) ≤ 50)) ∧
    (∀ m b, sse ((ss.map transform).zip xs) (fitFirst xs ss).1 (fitFirst xs ss).2 ≤
        sse ((ss.map transform).zip xs) m b) ∧
    fitXsAndSinthetas xs ss =
      polyfit (0 :: (fitKept xs ss).map Prod.fst) (0 :: (fitKept xs ss).map Prod.snd) ∧
    (∀ m b,
      sse ((0 :: (fitKept xs ss).map Prod.fst).zip (0 :: (fitKept xs ss).map Prod.snd))
          (fitXsAndSinthetas xs ss).1 (fitXsAndSinthetas xs ss).2 ≤
        sse ((0 :: (fitKept xs ss).map Prod.fst).zip (0 :: (fitKept xs ss).map Prod.snd))
          m b) := by
  have hl1 : (ss.map transform).length = xs.length := by
    rw [List.length_map]; exact hl
  have hl2 : (0 :: (fitKept xs ss).map Prod.fst).length =
      (0 :: (fitKept xs ss).map Prod.snd).length := by
    simp
  refine ⟨?_, ?_, rfl, ?_⟩
  · rw [fitKept, outlierKeep_eq_filter]
  · intro m b
    exact polyfit_isLeastSquares (ss.map transform) xs hl1 h1 m b
  · intro m b
    exact polyfit_isLeastSquares (0 :: (fitKept xs ss).map Prod.fst)
      (0 :: (fitKept xs ss).map Prod.snd) hl2 h2 m b

/-- Witness for C7 on the data `xs = [0, 60]`, `sinthetas = [0, 3/5]`: both
rank conditions hold and the final fit is the second-pass fit of the
reseeded data. -/
theorem C7_two_pass_fit_witness :
    lsDenom (([0, 3/5] : List ℝ).map transform) ≠ 0 ∧
    lsDenom (0 :: (fitKept [0, 60] [0, 3/5]).map Prod.fst) ≠ 0 ∧
    fitXsAndSinthetas [0, 60] [0, 3/5] =
      polyfit (0 :: (fitKept [0, 60] [0, 3/5]).map Prod.fst)
        (0 :: (fitKept [0, 60] [0, 3/5]).map Prod.snd) := by
  have hs : Real.sqrt (1 - (3/5 : ℝ) ^ 2) = 4/5 := by
    rw [show (1 - (3/5 : ℝ) ^ 2) = (4/5) ^ 2 by norm_num, Real.sqrt_sq (by norm_num)]
  have ht0 : transform 0 = 0 := by simp [transform]
  have ht35 : transform (3/5) = 3/4 := by
    rw [transform, hs]
    norm_num
  have ht : ([0, 3/5] : List ℝ).map transform = [0, 3/4] := by
    simp only [List.map_cons, List.map_nil, ht0, ht35]
  have h1 : lsDenom (([0, 3/5] : List ℝ).map transform) ≠ 0 := by
    rw [ht]
    simp only [lsDenom, List.map_cons, List.map_nil, List.sum_cons, List.sum_nil,
      List.length_cons, List.length_nil]
    norm_num
  have hfirst : fitFirst [0, 60] [0, 3/5] = (80, 0) := by
    rw [fitFirst, ht]
    simp only [polyfit, lsDenom, List.zip_cons_cons, List.zip_nil_right, List.map_cons,
      List.map_nil, List.sum_cons, List.sum_nil, List.length_cons, List.length_nil]
    norm_num
  have hkept : fitKept [0, 60] [0, 3/5] = [(0, 0), (3/4, 60)] := by
    rw [fitKept, hfirst, ht]
    simp only [List.zip_cons_cons, List.zip_nil_right, outlierKeep]
    norm_num
  have h2 : lsDenom (0 :: (fitKept [0, 60] [0, 3/5]).map Prod.fst) ≠ 0 := by
    rw [hkept]
    simp only [lsDenom, List.map_cons, List.map_nil, List.sum_cons, List.sum_nil,
      List.length_cons, List.length_nil]
    norm_num
  exact ⟨h1, h2, (C7_two_pass_fit [0, 60] [0, 3/5] (by simp) h1 h2).2.2.1⟩

/-- C2 evaluation: a run in which exactly one image yields a sample hands
the fitter the seed plus one point; the fitter simply returns the exact
line through the two points (slope 400/3 here) instead of failing with any
designated insufficient-data error (no such error exists in the code; the
`RankWarning` numpy would emit in still smaller cases is suppressed by
`warnings.filterwarnings`). -/
theorem C2_fit_returns_slope_on_single_sample :
    fitXsAndSinthetas [0, 100] [0, 3/5] = (400/3, 0) := by
  have hs : Real.sqrt (1 - (3/5 : ℝ) ^ 2) = 4/5 := by
    rw [show (1 - (3/5 : ℝ) ^ 2) = (4/5) ^ 2 by norm_num, Real.sqrt_sq (by norm_num)]
  have ht0 : transform 0 = 0 := by simp [transform]
  have ht35 : transform (3/5) = 3/4 := by
    rw [transform, hs]
    norm_num
  have ht : ([0, 3/5] : List ℝ).map transform = [0, 3/4] := by
    simp only [List.map_cons, List.map_nil, ht0, ht35]
  have hfirst : fitFirst [0, 100] [0, 3/5] = (400/3, 0) := by
    rw [fitFirst, ht]
    simp only [polyfit, lsDenom, List.zip_cons_cons, List.zip_nil_right, List.map_cons,
      List.map_nil, List.sum_cons, List.sum_nil, List.length_cons, List.length_nil]
    norm_num
  have hkept : fitKept [0, 100] [0, 3/5] = [(0, 0), (3/4, 100)] := by
    rw [fitKept, hfirst, ht]
    simp only [List.zip_cons_cons, List.zip_nil_right, outlierKeep]
    norm_num
  rw [fitXsAndSinthetas, hkept]
  simp only [polyfit, lsDenom, List.map_cons, List.map_nil, List.zip_cons_cons,
    List.zip_nil_right, List.sum_cons, List.sum_nil, List.length_cons, List.length_nil]
  norm_num

/-- C8 counterexample: on `xs = [0, 400, 400]` with angles giving
`u = [0, 1, 2]`, the first-pass fit is the line `200 u + 200/3`, whose
residual at the seed `(0, 0)` is `200/3 > 50`: the outlier mask flags the
seed and the removal pass drops it (a fresh `(0, 0)` is re-inserted only
afterwards), so the seed is not *never removed as an outlier*. -/
theorem C8_counterexample_seed_flagged :
    (((([0, Real.sqrt 2 / 2, 2 / Real.sqrt 5] : List ℝ).map transform).zip
        ([0, 400, 400] : List ℝ)).head? = some (0, 0)) ∧
    abs ((fitFirst [0, 400, 400] [0, Real.sqrt 2 / 2, 2 / Real.sqrt 5]).1 * 0 +
        (fitFirst [0, 400, 400] [0, Real.sqrt 2 / 2, 2 / Real.sqrt 5]).2 - 0) > 50 ∧
    (0, 0) ∉ fitKept [0, 400, 400] [0, Real.sqrt 2 / 2, 2 / Real.sqrt 5] := by
  have h2pos : (0 : ℝ) < Real.sqrt 2 := Real.sqrt_pos.mpr (by norm_num)
  have h5pos : (0 : ℝ) < Real.sqrt 5 := Real.sqrt_pos.mpr (by norm_num)
  have h2sq : Real.sqrt 2 ^ 2 = 2 := Real.sq_sqrt (by norm_num)
  have h5sq : Real.sqrt 5 ^ 2 = 5 := Real.sq_sqrt (by norm_num)
  have ht1 : transform (Real.sqrt 2 / 2) = 1 := by
    unfold transform
    rw [show (1 - (Real.sqrt 2 / 2) ^ 2 : ℝ) = (Real.sqrt 2 / 2) ^ 2 by
        rw [div_pow, h2sq]; norm_num,
      Real.sqrt_sq (by positivity)]
    rw [div_self (by positivity)]
  have ht2 : transform (2 / Real.sqrt 5) = 2 := by
    unfold transform
    rw [show (1 - (2 / Real.sqrt 5) ^ 2 : ℝ) = (Real.sqrt 5 / 5) ^ 2 by
        rw [div_pow, div_pow, h5sq]; norm_num,
      Real.sqrt_sq (by positivity)]
    rw [div_div_div_eq]
    rw [show Real.sqrt 5 * Real.sqrt 5 = 5 by nlinarith [h5sq]]
    norm_num
  have ht0 : transform 0 = 0 := by simp [transform]
  have ht : ([0, Real.sqrt 2 / 2, 2 / Real.sqrt 5] : List ℝ).map transform = [0, 1, 2] := by
    simp only [List.map_cons, List.map_nil, ht0, ht1, ht2]
  have hfirst : fitFirst [0, 400, 400] [0, Real.sqrt 2 / 2, 2 / Real.sqrt 5] =
      (200, 200/3) := by
    rw [fitFirst, ht]
    simp only [polyfit, lsDenom, List.zip_cons_cons, List.zip_nil_right, List.map_cons,
      List.map_nil, List.sum_cons, List.sum_nil, List.length_cons, List.length_nil]
    norm_num
  refine ⟨?_, ?_, ?_⟩
  · rw [ht]
    simp
  · rw [hfirst]
    norm_num [abs_of_nonneg]
  · rw [fitKept, hfirst, ht]
    simp only [List.zip_cons_cons, List.zip_nil_right, outlierKeep]
    norm_num [abs_of_nonneg, abs_of_nonpos]

/-- C8 amended: the accumulated sample sequence always begins with the seed
pair `(0, 0)`; the first fitting pass operates on the whole sequence, whose
head is the seed, and the second pass operates on data whose head is the
re-inserted `(0, 0)`, so the seed point is present in both least-squares
passes.  (The outlier mask, however, can flag the original seed when the
first-pass intercept exceeds 50 in absolute value; the seed survives only
because a fresh `(0, 0)` is unconditionally re-inserted.) -/
theorem C8_amended_seed_in_both_passes (bt : BaseType)
    (imgs : List (Option (List ℝ × List ℝ) × ℝ)) (xs ss : List ℝ)
    (h : processImages bt imgs ([0], [0]) = Except.ok (xs, ss)) :
    xs.head? = some 0 ∧ ss.head? = some 0 ∧
    ((ss.map transform).zip xs).head? = some (0, 0) ∧
    (0 :: (fitKept xs ss).map Prod.fst).head? = some 0 ∧
    (0 :: (fitKept xs ss).map Prod.snd).head? = some 0 := by
  obtain ⟨h1, h2⟩ := processImages_head bt imgs ([0], [0]) xs ss (by simp) (by simp) h
  simp only [List.head?_cons] at h1 h2
  refine ⟨h1, h2, ?_, rfl, rfl⟩
  cases xs with
  | nil => simp at h1
  | cons a xt =>
    cases ss with
    | nil => simp at h2
    | cons b st =>
      simp only [List.head?_cons, Option.some.injEq] at h1 h2
      subst h1
      subst h2
      simp only [List.map_cons, List.zip_cons_cons, List.head?_cons, Option.some.injEq]
      rw [transform]
      norm_num

/-- Witness for C8 amended: the empty run leaves exactly the seed pair, and
all five head conditions evaluate. -/
theorem C8_amended_seed_in_both_passes_witness :
    ([0] : List ℝ).head? = some 0 ∧ ([0] : List ℝ).head? = some 0 ∧
    ((([0] : List ℝ).map transform).zip ([0] : List ℝ)).head? = some (0, 0) ∧
    (0 :: (fitKept [0] [0]).map Prod.fst).head? = some 0 ∧
    (0 :: (fitKept [0] [0]).map Prod.snd).head? = some 0 :=
  C8_amended_seed_in_both_passes ⟨Kind.Au, Surface.s111⟩ [] [0] [0] rfl

/-- C10: for kind `Ag` or `Cu`, surface `110`, and a nonempty cluster list,
the reference slot 0 is the minimum angle of the first cluster, so the
first cluster always matches with error zero and the returned sample is its
median radius with `sintheta = 1 * sqrt (150.4 / voltage) / a`; the
`sqrt 2` slot-1 branch and the no-sample outcome are unreachable. -/
theorem C10_agcu110_first_cluster (kind : Kind) (hk : kind = Kind.Ag ∨ kind = Kind.Cu)
    (c : List ℝ) (rest : List (List ℝ)) (t : List ℝ) (ts : List (List ℝ))
    (v : ℝ) (hv : 0 < v) :
    calcXAndSintheta ⟨kind, Surface.s110⟩ (c :: rest) (t :: ts) v =
      some (median c, Real.sqrt (150.4 / v) / latticeA kind) := by
  have hz : abs (listMin t - listMin t) < 0.1 := by
    rw [sub_self, abs_zero]; norm_num
  rcases hk with h | h <;> subst h <;>
  · simp only [calcXAndSintheta, List.headD_cons, agcuLoop]
    rw [if_neg (show ¬ (0 > 2) by norm_num), if_pos hz, one_mul]

/-- Witness for C10 at kind `Ag`, one cluster `[80, 80]` with angles
`[0.5, 3.64]`, voltage 150.4. -/
theorem C10_agcu110_first_cluster_witness :
    calcXAndSintheta ⟨Kind.Ag, Surface.s110⟩ [[80, 80]] [[0.5, 3.64]] 150.4 =
      some (80, Real.sqrt (150.4 / 150.4) / latticeA Kind.Ag) := by
  have h := C10_agcu110_first_cluster Kind.Ag (Or.inl rfl) [80, 80] [] [0.5, 3.64] []
    150.4 (by norm_num)
  rw [h]
  have hm : median [80, 80] = 80 := by
    simp [median, sortList, insertSorted]
  rw [hm]

end Leed

end
